import Mathlib

/-!
Verification of the stan-bench load-generation harness (YouEclipse/nats-util).

The definitions below are a shallow embedding of `src/main/main.go`:
pure computations become Lean functions, the per-worker callback logic
becomes explicit state-passing, and the queue-group coordination
(shared atomic counters `qTotalRecv` / `qSubsLeft`, subscription
close, sentinel publication) becomes an explicit step relation on a
run state, executed over event traces.
-/

namespace StanBench

/-- Modelled from the spec: `bench.MsgsPerClient` (called at
`src/main/main.go:130`) lives in the external `nats.go/bench` package and its
source is not part of this repository.  The spec (§4.1 step 1) says: split the
total as evenly as possible; if not evenly divisible, the first
`total mod publisherCount` publishers each receive one extra message. -/
def MsgsPerClient (numMsgs numClients : Nat) : List Nat :=
  if numClients = 0 then []
  else
    List.replicate (numMsgs % numClients) (numMsgs / numClients + 1) ++
      List.replicate (numClients - numMsgs % numClients) (numMsgs / numClients)

/-- Hard-coded publisher payload, transcribed byte for byte from
`src/main/main.go:172` (`msg = []byte\x7b10,213,14,...\x7d`; the line
`msg = make([]byte, msgSize)` directly above it is commented out in the
source). -/
def fixedMsg : List Nat :=
  [10, 213, 14, 123, 34, 114, 101, 113, 117, 101, 115, 116, 95, 105, 100, 34, 58, 34, 56, 97, 54,
   54, 57, 53, 55, 34, 44, 34, 114, 101, 113, 117, 101, 115, 116, 95, 109, 101, 116, 104, 111,
   100, 34, 58, 34, 80, 79, 83, 84, 34, 44, 34, 114, 101, 113, 117, 101, 115, 116, 95, 117, 114,
   108, 34, 58, 34, 104, 116, 116, 112, 115, 58, 47, 47, 97, 112, 105, 46, 105, 116, 101, 114, 97,
   98, 108, 101, 46, 99, 111, 109, 47, 97, 112, 105, 47, 101, 118, 101, 110, 116, 115, 47, 116,
   114, 97, 99, 107, 34, 44, 34, 111, 112, 101, 114, 97, 116, 105, 111, 110, 95, 116, 121, 112,
   101, 34, 58, 34, 84, 114, 97, 99, 107, 69, 118, 101, 110, 116, 34, 44, 34, 117, 115, 101, 114,
   95, 103, 108, 111, 98, 97, 108, 95, 105, 100, 34, 58, 34, 48, 100, 56, 57, 101, 53, 102, 99,
   57, 99, 52, 56, 54, 97, 51, 97, 99, 52, 100, 53, 54, 101, 56, 55, 51, 52, 98, 56, 51, 57, 53,
   99, 102, 101, 34, 44, 34, 116, 105, 109, 101, 95, 117, 110, 105, 120, 34, 58, 49, 54, 48, 52,
   52, 56, 54, 52, 56, 57, 44, 34, 112, 114, 111, 112, 101, 114, 116, 105, 101, 115, 34, 58, 34,
   123, 92, 34, 101, 118, 101, 110, 116, 78, 97, 109, 101, 92, 34, 58, 92, 34, 97, 99, 116, 105,
   118, 105, 116, 121, 112, 97, 103, 101, 92, 34, 44, 92, 34, 99, 114, 101, 97, 116, 101, 100, 65,
   116, 92, 34, 58, 49, 54, 48, 52, 52, 56, 54, 52, 56, 55, 57, 55, 50, 44, 92, 34, 100, 97, 116,
   97, 70, 105, 101, 108, 100, 115, 92, 34, 58, 123, 92, 34, 97, 99, 116, 105, 118, 105, 116, 121,
   73, 68, 92, 34, 58, 52, 53, 54, 48, 56, 44, 92, 34, 97, 99, 116, 105, 118, 105, 116, 121, 73,
   109, 97, 103, 101, 92, 34, 58, 92, 34, 47, 97, 99, 116, 105, 118, 105, 116, 105, 101, 115, 47,
   110, 117, 103, 121, 104, 115, 101, 101, 110, 119, 52, 112, 122, 121, 107, 122, 118, 102, 100,
   117, 46, 106, 112, 103, 92, 34, 44, 92, 34, 97, 99, 116, 105, 118, 105, 116, 121, 78, 97, 109,
   101, 92, 34, 58, 92, 34, 231, 141, 168, 229, 174, 182, 229, 132, 170, 230, 131, 160, 239, 188,
   154, 233, 166, 153, 230, 184, 175, 229, 155, 155, 229, 173, 163, 233, 133, 146, 229, 186, 151,
   228, 189, 143, 229, 174, 191, 229, 165, 151, 233, 164, 144, 92, 34, 44, 92, 34, 97, 99, 116,
   105, 118, 105, 116, 121, 80, 114, 105, 99, 101, 92, 34, 58, 92, 34, 72, 75, 36, 50, 44, 53, 51,
   48, 92, 34, 44, 92, 34, 98, 111, 111, 107, 105, 110, 103, 78, 117, 109, 98, 101, 114, 92, 34,
   58, 49, 51, 54, 54, 44, 92, 34, 99, 97, 116, 101, 103, 111, 114, 121, 73, 68, 92, 34, 58, 51,
   44, 92, 34, 99, 105, 116, 121, 73, 68, 92, 34, 58, 50, 44, 92, 34, 99, 105, 116, 121, 78, 97,
   109, 101, 92, 34, 58, 92, 34, 233, 166, 153, 230, 184, 175, 92, 34, 44, 92, 34, 99, 105, 116,
   121, 85, 82, 76, 92, 34, 58, 92, 34, 104, 116, 116, 112, 115, 58, 47, 47, 119, 119, 119, 46,
   107, 108, 111, 111, 107, 46, 99, 111, 109, 47, 122, 104, 45, 72, 75, 47, 99, 105, 116, 121, 47,
   50, 92, 34, 44, 92, 34, 99, 111, 117, 110, 116, 114, 121, 73, 68, 92, 34, 58, 50, 44, 92, 34,
   112, 97, 103, 101, 85, 82, 76, 92, 34, 58, 92, 34, 104, 116, 116, 112, 115, 58, 47, 47, 119,
   119, 119, 46, 107, 108, 111, 111, 107, 46, 99, 111, 109, 47, 122, 104, 45, 72, 75, 47, 97, 99,
   116, 105, 118, 105, 116, 121, 47, 52, 53, 54, 48, 56, 92, 34, 44, 92, 34, 112, 108, 97, 116,
   102, 111, 114, 109, 92, 34, 58, 92, 34, 65, 110, 100, 114, 111, 105, 100, 92, 34, 44, 92, 34,
   114, 101, 99, 111, 109, 109, 101, 110, 100, 101, 100, 65, 99, 116, 105, 118, 105, 116, 121, 49,
   92, 34, 58, 123, 92, 34, 73, 109, 97, 103, 101, 85, 82, 76, 92, 34, 58, 92, 34, 104, 116, 116,
   112, 115, 58, 47, 47, 114, 101, 115, 46, 107, 108, 111, 111, 107, 46, 99, 111, 109, 47, 105,
   109, 97, 103, 101, 47, 117, 112, 108, 111, 97, 100, 47, 97, 99, 116, 105, 118, 105, 116, 105,
   101, 115, 47, 102, 57, 53, 98, 53, 101, 101, 102, 45, 65, 113, 117, 97, 76, 117, 110, 97, 45,
   78, 105, 103, 104, 116, 45, 67, 114, 117, 105, 115, 101, 46, 106, 112, 103, 92, 34, 44, 92, 34,
   78, 97, 109, 101, 92, 34, 58, 92, 34, 229, 188, 181, 228, 191, 157, 228, 187, 148, 232, 153,
   159, 233, 171, 148, 233, 169, 151, 228, 185, 139, 230, 151, 133, 32, 40, 230, 140, 135, 229,
   174, 154, 230, 153, 130, 229, 128, 153, 232, 178, 183, 51, 233, 128, 129, 49, 41, 92, 34, 44,
   92, 34, 80, 114, 105, 99, 101, 92, 34, 58, 92, 34, 72, 75, 36, 50, 48, 49, 46, 48, 92, 34, 44,
   92, 34, 98, 111, 111, 107, 105, 110, 103, 78, 117, 109, 98, 101, 114, 92, 34, 58, 49, 49, 56,
   53, 49, 54, 44, 92, 34, 112, 97, 103, 101, 85, 82, 76, 92, 34, 58, 92, 34, 104, 116, 116, 112,
   115, 58, 47, 47, 119, 119, 119, 46, 107, 108, 111, 111, 107, 46, 99, 111, 109, 47, 122, 104,
   45, 72, 75, 47, 97, 99, 116, 105, 118, 105, 116, 121, 47, 54, 53, 57, 92, 34, 44, 92, 34, 114,
   101, 118, 105, 101, 119, 78, 117, 109, 98, 101, 114, 92, 34, 58, 53, 57, 50, 57, 44, 92, 34,
   114, 101, 118, 105, 101, 119, 82, 97, 116, 105, 110, 103, 92, 34, 58, 52, 46, 55, 125, 44, 92,
   34, 114, 101, 99, 111, 109, 109, 101, 110, 100, 101, 100, 65, 99, 116, 105, 118, 105, 116, 121,
   50, 92, 34, 58, 123, 92, 34, 73, 109, 97, 103, 101, 85, 82, 76, 92, 34, 58, 92, 34, 104, 116,
   116, 112, 115, 58, 47, 47, 114, 101, 115, 46, 107, 108, 111, 111, 107, 46, 99, 111, 109, 47,
   105, 109, 97, 103, 101, 47, 117, 112, 108, 111, 97, 100, 47, 97, 99, 116, 105, 118, 105, 116,
   105, 101, 115, 47, 111, 56, 120, 106, 107, 49, 113, 97, 121, 103, 114, 109, 117, 115, 119, 108,
   103, 118, 103, 107, 46, 106, 112, 103, 92, 34, 44, 92, 34, 78, 97, 109, 101, 92, 34, 58, 92,
   34, 227, 128, 144, 229, 141, 179, 232, 178, 183, 229, 141, 179, 231, 148, 168, 227, 128, 145,
   233, 166, 153, 230, 184, 175, 230, 169, 159, 229, 160, 180, 229, 191, 171, 231, 183, 154, 232,
   187, 138, 231, 165, 168, 239, 188, 136, 230, 142, 131, 81, 82, 32, 67, 111, 100, 101, 231, 155,
   180, 230, 142, 165, 229, 133, 165, 233, 150, 152, 239, 188, 137, 92, 34, 44, 92, 34, 80, 114,
   105, 99, 101, 92, 34, 58, 92, 34, 72, 75, 36, 52, 57, 46, 48, 92, 34, 44, 92, 34, 98, 111, 111,
   107, 105, 110, 103, 78, 117, 109, 98, 101, 114, 92, 34, 58, 52, 48, 50, 57, 48, 54, 56, 44, 92,
   34, 112, 97, 103, 101, 85, 82, 76, 92, 34, 58, 92, 34, 104, 116, 116, 112, 115, 58, 47, 47,
   119, 119, 119, 46, 107, 108, 111, 111, 107, 46, 99, 111, 109, 47, 122, 104, 45, 72, 75, 47, 97,
   99, 116, 105, 118, 105, 116, 121, 47, 55, 49, 92, 34, 44, 92, 34, 114, 101, 118, 105, 101, 119,
   78, 117, 109, 98, 101, 114, 92, 34, 58, 50, 57, 51, 56, 50, 52, 44, 92, 34, 114, 101, 118, 105,
   101, 119, 82, 97, 116, 105, 110, 103, 92, 34, 58, 52, 46, 57, 125, 44, 92, 34, 114, 101, 99,
   111, 109, 109, 101, 110, 100, 101, 100, 65, 99, 116, 105, 118, 105, 116, 121, 51, 92, 34, 58,
   123, 92, 34, 73, 109, 97, 103, 101, 85, 82, 76, 92, 34, 58, 92, 34, 104, 116, 116, 112, 115,
   58, 47, 47, 114, 101, 115, 46, 107, 108, 111, 111, 107, 46, 99, 111, 109, 47, 105, 109, 97,
   103, 101, 47, 117, 112, 108, 111, 97, 100, 47, 97, 99, 116, 105, 118, 105, 116, 105, 101, 115,
   47, 119, 103, 119, 55, 102, 56, 110, 48, 110, 108, 122, 106, 48, 54, 51, 113, 122, 121, 107,
   52, 46, 106, 112, 103, 92, 34, 44, 92, 34, 78, 97, 109, 101, 92, 34, 58, 92, 34, 227, 128, 144,
   231, 141, 168, 229, 174, 182, 229, 132, 170, 230, 131, 160, 227, 128, 145, 233, 166, 153, 230,
   184, 175, 232, 191, 170, 229, 163, 171, 229, 176, 188, 230, 168, 130, 229, 156, 146, 233, 150,
   128, 231, 165, 168, 32, 43, 32, 229, 146, 150, 229, 149, 161, 229, 132, 170, 230, 131, 160, 92,
   34, 44, 92, 34, 80, 114, 105, 99, 101, 92, 34, 58, 92, 34, 72, 75, 36, 53, 55, 51, 46, 48, 92,
   34, 44, 92, 34, 98, 111, 111, 107, 105, 110, 103, 78, 117, 109, 98, 101, 114, 92, 34, 58, 50,
   55, 53, 53, 52, 57, 56, 44, 92, 34, 112, 97, 103, 101, 85, 82, 76, 92, 34, 58, 92, 34, 104,
   116, 116, 112, 115, 58, 47, 47, 119, 119, 119, 46, 107, 108, 111, 111, 107, 46, 99, 111, 109,
   47, 122, 104, 45, 72, 75, 47, 97, 99, 116, 105, 118, 105, 116, 121, 47, 51, 57, 92, 34, 44, 92,
   34, 114, 101, 118, 105, 101, 119, 78, 117, 109, 98, 101, 114, 92, 34, 58, 49, 50, 56, 52, 54,
   57, 44, 92, 34, 114, 101, 118, 105, 101, 119, 82, 97, 116, 105, 110, 103, 92, 34, 58, 52, 46,
   56, 125, 44, 92, 34, 114, 101, 118, 105, 101, 119, 78, 117, 109, 98, 101, 114, 92, 34, 58, 49,
   57, 50, 44, 92, 34, 114, 101, 118, 105, 101, 119, 82, 97, 116, 105, 110, 103, 92, 34, 58, 52,
   46, 55, 44, 92, 34, 118, 101, 114, 116, 105, 99, 97, 108, 84, 121, 112, 101, 92, 34, 58, 92,
   34, 65, 99, 116, 105, 118, 105, 116, 105, 101, 115, 32, 92, 92, 117, 48, 48, 50, 54, 32, 69,
   120, 112, 101, 114, 105, 101, 110, 99, 101, 115, 92, 34, 125, 44, 92, 34, 117, 115, 101, 114,
   73, 100, 92, 34, 58, 92, 34, 48, 100, 56, 57, 101, 53, 102, 99, 57, 99, 52, 56, 54, 97, 51, 97,
   99, 52, 100, 53, 54, 101, 56, 55, 51, 52, 98, 56, 51, 57, 53, 99, 102, 101, 92, 34, 125, 34,
   125, 18, 30, 10, 8, 75, 77, 81, 45, 84, 101, 115, 116, 18, 8, 75, 77, 81, 45, 84, 101, 115,
   116, 40, 136, 189, 254, 221, 252, 139, 146, 162, 22]

/-- Payload built by `runPublisher` (`src/main/main.go:169-173`): the byte
slice `msg` is nil (empty) unless `msgSize > 0`, in which case it is the
hard-coded `fixedMsg` — not a buffer of `msgSize` bytes. -/
def mkPublisherMsg (msgSize : Nat) : List Nat :=
  if 0 < msgSize then fixedMsg else []

/-- Modelled from the spec: `bench.Sample` is constructed by the external
`nats.go/bench` package; per spec §3 a Sample is the immutable record
\x7bmessage count, message size, start timestamp, end timestamp\x7d. -/
structure Sample where
  msgCnt : Nat
  msgSize : Nat
  startTime : Nat
  endTime : Nat
deriving DecidableEq, Repr

/-- Sample emitted by `runPublisher` (`src/main/main.go:206`): the worker
records its assigned count `numMsgs` and the configured `msgSize` (not the
actual payload length). -/
def pubSample (numMsgs msgSize startTime endTime : Nat) : Sample :=
  ⟨numMsgs, msgSize, startTime, endTime⟩

/-- C1: for every (total, publisherCount) with publisherCount > 0, the
MessageShares sequence sums to the total, has one entry per publisher, any two
entries differ by at most 1, the first `total mod publisherCount` publishers
get the extra message (`total / publisherCount + 1`) and the remaining ones
get `total / publisherCount`; in particular MessageShares(1000, 3) =
[334, 333, 333].  Determinism for identical inputs is immediate because
`MsgsPerClient` is a pure function of its two arguments. -/
theorem MsgsPerClient_spec (total pubs : Nat) (h : 0 < pubs) :
    (MsgsPerClient total pubs).sum = total ∧
    (MsgsPerClient total pubs).length = pubs ∧
    (∀ a ∈ MsgsPerClient total pubs, ∀ b ∈ MsgsPerClient total pubs, a ≤ b + 1) ∧
    (∀ i, i < total % pubs → (MsgsPerClient total pubs)[i]? = some (total / pubs + 1)) ∧
    (∀ i, total % pubs ≤ i → i < pubs → (MsgsPerClient total pubs)[i]? = some (total / pubs)) ∧
    MsgsPerClient 1000 3 = [334, 333, 333] := by
  have hp : pubs ≠ 0 := Nat.pos_iff_ne_zero.mp h
  have hr : total % pubs < pubs := Nat.mod_lt _ h
  have hkey : pubs * (total / pubs) + total % pubs = total := Nat.div_add_mod total pubs
  unfold MsgsPerClient
  rw [if_neg hp]
  have e : ∀ r q p : Nat, r ≤ p → r * (q + 1) + (p - r) * q = p * q + r := by
    intro r q p hrp
    obtain ⟨s, hs⟩ : ∃ s, p = r + s := ⟨p - r, by omega⟩
    subst hs
    rw [Nat.add_sub_cancel_left]
    ring
  refine ⟨?_, ?_, ?_, ?_, ?_, by decide⟩
  · rw [List.sum_append, List.sum_replicate, List.sum_replicate, smul_eq_mul, smul_eq_mul,
      e (total % pubs) (total / pubs) pubs (le_of_lt hr)]
    omega
  · rw [List.length_append, List.length_replicate, List.length_replicate]
    omega
  · intro a ha b hb
    have bound : ∀ c, c ∈ List.replicate (total % pubs) (total / pubs + 1) ++
        List.replicate (pubs - total % pubs) (total / pubs) →
        c = total / pubs + 1 ∨ c = total / pubs := by
      intro c hc
      rcases List.mem_append.mp hc with hc1 | hc2
      · exact Or.inl (List.eq_of_mem_replicate hc1)
      · exact Or.inr (List.eq_of_mem_replicate hc2)
    rcases bound a ha with h1 | h1 <;> rcases bound b hb with h2 | h2 <;> omega
  · intro i hi
    rw [List.getElem?_append]
    rw [if_pos (by simpa using hi)]
    simp [List.getElem?_replicate, hi]
  · intro i hi1 hi2
    rw [List.getElem?_append]
    rw [if_neg (by simpa using Nat.not_lt.mpr hi1)]
    rw [List.length_replicate]
    have : i - total % pubs < pubs - total % pubs := by omega
    simp [List.getElem?_replicate, this]

/-- Witness for C1 at the spec's own example (total = 1000, publishers = 3). -/
theorem MsgsPerClient_spec_witness : (MsgsPerClient 1000 3).sum = 1000 :=
  (MsgsPerClient_spec 1000 3 (by decide)).1

set_option maxRecDepth 40000 in
/-- C8 counterexample: with the default configured size S = 128, the payload
actually published is the hard-coded 1912-byte message, not 128 bytes, while
the Sample emitted by the publisher records message size 128. -/
theorem publishedPayload_ne_configuredSize :
    (mkPublisherMsg 128).length = 1912 ∧
    (pubSample 100000 128 0 1).msgSize = 128 ∧
    ¬(mkPublisherMsg 128).length = (pubSample 100000 128 0 1).msgSize := by
  refine ⟨rfl, rfl, ?_⟩
  intro hcontra
  have h1 : (mkPublisherMsg 128).length = 1912 := rfl
  have h2 : (pubSample 100000 128 0 1).msgSize = 128 := rfl
  omega

set_option maxRecDepth 40000 in
/-- C8 (amended): for every configured payload size S > 0, every message the
publisher publishes carries the fixed hard-coded 1912-byte payload,
independent of S; the Sample records S as the message size, so the published
payload length matches the recorded size exactly when S = 1912. -/
theorem publishedPayload_fixed (S : Nat) (h : 0 < S) :
    mkPublisherMsg S = fixedMsg ∧
    (mkPublisherMsg S).length = 1912 ∧
    (∀ n st en, (pubSample n S st en).msgSize = S) ∧
    ((mkPublisherMsg S).length = S ↔ S = 1912) := by
  have hfix : mkPublisherMsg S = fixedMsg := by
    unfold mkPublisherMsg
    rw [if_pos h]
  have hlen : fixedMsg.length = 1912 := by rfl
  refine ⟨hfix, by rw [hfix, hlen], fun n st en => rfl, ?_⟩
  rw [hfix, hlen]
  omega

/-- Witness for C8's amended theorem at S = 1912. -/
theorem publishedPayload_fixed_witness : mkPublisherMsg 1912 = fixedMsg :=
  (publishedPayload_fixed 1912 (by decide)).1

/-- Character-list prefix test: does the second list start with the first? -/
def matchesAt : List Char → List Char → Bool
  | [], _ => true
  | _ :: _, [] => false
  | a :: as, b :: bs => a == b && matchesAt as bs

/-- Embedding of Go's `strings.Contains(s, pat)` used at
`src/main/main.go:99`: the pattern occurs as a contiguous subsequence. -/
def containsSeq (pat : List Char) : List Char → Bool
  | [] => matchesAt pat []
  | c :: rest => matchesAt pat (c :: rest) || containsSeq pat rest

/-- Command-line inputs relevant to the argument validation in `main`
(`src/main/main.go:82-108`). -/
structure CLIArgs where
  nPositional : Nat
  urls : String
  userCreds : String
  user : String
  pswd : String
  certDir : String
  certFile : String
  certKey : String
deriving DecidableEq, Repr

/-- TLS branch of the validation (`src/main/main.go:99-108`): when the URL
list contains "tls://", a certificate directory selects RootCAs, otherwise a
certificate file together with its key selects ClientCert, otherwise
`usage()` (which is `log.Fatalf`) terminates the process.  The credentials
file is never consulted here. -/
def tlsUsage (a : CLIArgs) : Bool :=
  if containsSeq "tls://".toList a.urls.toList then
    if 0 < a.certDir.length then false
    else if 0 < a.certFile.length ∧ 0 < a.certKey.length then false
    else true
  else false

/-- Whole argument validation (`src/main/main.go:82-108`): `usage()` is
reached iff the positional-argument count is not one, or the TLS branch
falls through. -/
def usageCalled (a : CLIArgs) : Bool :=
  if a.nPositional ≠ 1 then true else tlsUsage a

/-- C9 counterexample: a TLS server URL accompanied by only a credentials
file (no certificate directory, no certificate file/key) does NOT pass
validation — `usage()` is called and the process terminates, while the claim
says this combination proceeds. -/
theorem tlsWithCredsOnly_rejected :
    usageCalled ⟨1, "tls://demo.nats.io:4443", "user.creds", "", "", "", "", ""⟩ = true := by
  decide

/-- C9 (amended): validation prints usage and terminates exactly when the
positional-argument count is not one, or a server URL is a TLS URL and the
user supplied neither a certificate directory nor a certificate file together
with its key.  The credentials file (and basic-auth user/password) play no
role in this decision, so a TLS URL with only a credentials file is rejected. -/
theorem usageCalled_iff (a : CLIArgs) :
    (usageCalled a = true ↔
      a.nPositional ≠ 1 ∨
        (containsSeq "tls://".toList a.urls.toList = true ∧ a.certDir.length = 0 ∧
          (a.certFile.length = 0 ∨ a.certKey.length = 0))) ∧
    (∀ creds u p,
      usageCalled { a with userCreds := creds, user := u, pswd := p } = usageCalled a) := by
  constructor
  · unfold usageCalled tlsUsage
    split_ifs with h1 h2 h3 h4 <;> simp_all <;> omega
  · intro creds u p
    rfl

/-- Per-worker publish loop over the stream of publish-call results
(`src/main/main.go:189-194` for the async `PublishAsync` calls and
`src/main/main.go:197-203` for the sync `Publish` calls): each error is
handled with `log.Fatal`, so the first failing call aborts the process
(`Except.error`); otherwise every call counts one published message. -/
def publishLoop : List (Option String) → Except String Nat
  | [] => Except.ok 0
  | none :: rest =>
      match publishLoop rest with
      | Except.ok n => Except.ok (n + 1)
      | Except.error e => Except.error e
  | some e :: _ => Except.error e

/-- Per-worker async acknowledgement state: `published` is the running ack
counter, `chSends` the number of values ever sent on the single-use
completion channel `ch`. -/
structure PubAckState where
  published : Nat
  chSends : Nat
deriving DecidableEq, Repr

/-- Counting part of the acknowledgement callback `acb`
(`src/main/main.go:180-188`) on a successful ack: increments `published`;
once `published` has reached `numMsgs` it sends one value on `ch`. -/
def acb (numMsgs : Nat) (s : PubAckState) : PubAckState :=
  let p := s.published + 1
  { published := p, chSends := if numMsgs ≤ p then s.chSends + 1 else s.chSends }

/-- The acknowledgement callback with its error check
(`src/main/main.go:181-183`): an ack reporting an error is fatal
(`log.Fatalf`), otherwise the counting update runs. -/
def acbWithErr (numMsgs : Nat) (err : Option String) (s : PubAckState) :
    Except String PubAckState :=
  match err with
  | some e => Except.error e
  | none => Except.ok (acb numMsgs s)

/-- Worker state after `k` successful acknowledgements. -/
def runAcks (numMsgs : Nat) : Nat → PubAckState
  | 0 => ⟨0, 0⟩
  | k + 1 => acb numMsgs (runAcks numMsgs k)

/-- The async worker blocks on `<-ch` (`src/main/main.go:195`) after issuing
its `numMsgs` publishes; it proceeds past that point iff at least one value
was ever sent on `ch` once all `numMsgs` acks have arrived. -/
def asyncCompletionFires (numMsgs : Nat) : Bool :=
  decide (0 < (runAcks numMsgs numMsgs).chSends)

/-- Async worker outcome (`src/main/main.go:178-209`): if the completion
notification fires, the worker records the end timestamp and emits its Sample
(assigned count, configured size); otherwise it stays blocked and emits
nothing. -/
def runPublisherAsync (M msgSize startTime endTime : Nat) : Option Sample :=
  if asyncCompletionFires M then some (pubSample M msgSize startTime endTime) else none

/-- Before the assigned count is reached, no completion value has been sent. -/
theorem runAcks_before (M : Nat) : ∀ k, k < M → runAcks M k = ⟨k, 0⟩ := by
  intro k
  induction k with
  | zero => intro _; rfl
  | succ n ih =>
      intro hk
      have hn : n < M := Nat.lt_of_succ_lt hk
      unfold runAcks
      rw [ih hn]
      unfold acb
      simp only []
      have : ¬ M ≤ n + 1 := Nat.not_le.mpr hk
      simp [this]

/-- C6 counterexample: an async worker with assigned message count M = 0
publishes nothing, so no acknowledgement callback ever runs, the completion
channel never fires, and the worker blocks forever on `<-ch` instead of
completing — the claim's "any M ≥ 0" fails at M = 0. -/
theorem asyncZeroAssigned_blocks :
    asyncCompletionFires 0 = false ∧ runPublisherAsync 0 128 0 1 = none := by
  exact ⟨rfl, rfl⟩

/-- C6 (amended): for every async publisher with assigned count M ≥ 1, the
acknowledgment counter reaching M is exactly the event that fires the
single-use completion notification (exactly one send, at the M-th ack and at
no earlier point), after which the worker records its end timestamp and emits
its Sample; for M = 0 the notification never fires and the worker blocks
forever on `<-ch`. -/
theorem asyncCompletion_atMthAck (M : Nat) (h : 1 ≤ M) :
    runAcks M M = ⟨M, 1⟩ ∧
    (∀ k, k < M → (runAcks M k).chSends = 0) ∧
    (∀ s a b, runPublisherAsync M s a b = some (pubSample M s a b)) := by
  obtain ⟨m, rfl⟩ : ∃ m, M = m + 1 := ⟨M - 1, by omega⟩
  have hrun : runAcks (m + 1) (m + 1) = ⟨m + 1, 1⟩ := by
    unfold runAcks
    rw [runAcks_before (m + 1) m (Nat.lt_succ_self m)]
    unfold acb
    simp
  refine ⟨hrun, ?_, ?_⟩
  · intro k hk
    rw [runAcks_before (m + 1) k hk]
  · intro s a b
    unfold runPublisherAsync asyncCompletionFires
    rw [hrun]
    simp

/-- Witness for C6's amended theorem at M = 3. -/
theorem asyncCompletion_atMthAck_witness : runAcks 3 3 = ⟨3, 1⟩ :=
  (asyncCompletion_atMthAck 3 (by decide)).1

/-- Actions a finishing queue-group member may perform. -/
inductive SubAction where
  | closeSub
  | publishSentinel
deriving DecidableEq, Repr

/-- Queue completion block of `runSubscriber` (`src/main/main.go:263-270`),
parametrised by the value of `qSubsLeft` after the atomic decrement and by
the result of the sentinel `snc.Publish` call.  Returns the actions performed
in order and whether the process was terminated fatally; the publish result
is discarded by the code, so the fatal flag is `false` for every input. -/
def queueFinishTail (srAfterDec : Int) (sentinelErr : Option String) :
    List SubAction × Bool :=
  if 0 < srAfterDec then ([SubAction.closeSub, SubAction.publishSentinel], false)
  else ([], false)

/-- C7 counterexample: a sentinel publish by a finished queue-group member
that fails (here with error "sentinel publish failed") does NOT terminate the
process — the error is discarded and the run proceeds to its report — while
the claim says every publish error is fatal. -/
theorem sentinelPublishError_notFatal :
    queueFinishTail 1 (some "sentinel publish failed") =
      ([SubAction.closeSub, SubAction.publishSentinel], false) := by
  rfl

/-- C7 (amended): publish failures in a publisher worker are uniformly fatal —
a synchronous publish error, an asynchronous publish-call error (both modelled
by `publishLoop`, whose success is equivalent to the absence of any error in
the stream) and an asynchronous acknowledgment error all abort the process —
but the sentinel publish issued by a finished queue-group member discards its
error and never terminates the process. -/
theorem publishErrors_fatal_except_sentinel :
    (∀ errs : List (Option String),
      (∃ n, publishLoop errs = Except.ok n) ↔ ∀ e ∈ errs, e = none) ∧
    (∀ M s e, acbWithErr M (some e) s = Except.error e) ∧
    (∀ M s, acbWithErr M none s = Except.ok (acb M s)) ∧
    (∀ sr err, (queueFinishTail sr err).2 = false) := by
  refine ⟨?_, fun M s e => rfl, fun M s => rfl, ?_⟩
  · intro errs
    induction errs with
    | nil => simp [publishLoop]
    | cons hd tl ih =>
        cases hd with
        | none =>
            cases htl : publishLoop tl with
            | ok m =>
                simp only [publishLoop, htl]
                constructor
                · intro _ e he
                  rcases List.mem_cons.mp he with rfl | hmem
                  · rfl
                  · exact (ih.mp ⟨m, htl⟩) e hmem
                · intro _
                  exact ⟨m + 1, rfl⟩
            | error msg =>
                simp only [publishLoop, htl]
                constructor
                · rintro ⟨n, hn⟩
                  cases hn
                · intro hall
                  obtain ⟨n, hn⟩ := ih.mpr (fun e he => hall e (List.mem_cons_of_mem _ he))
                  rw [hn] at htl
                  cases htl
        | some msg =>
            simp only [publishLoop]
            constructor
            · rintro ⟨n, hn⟩
              cases hn
            · intro hall
              exact absurd (hall (some msg) (List.mem_cons_self _ _)) (by simp)
  · intro sr err
    unfold queueFinishTail
    split_ifs <;> rfl

/-- Channel traffic of a non-queue subscriber's message callback `mcb`
(`src/main/main.go:231-245`) after the first `d` deliveries.  The local
`received` counter equals the delivery index.  Each list entry is one value
sent on the rendezvous channel `ch`, in FIFO order, recorded as (delivery
index that caused the send, whether the completion branch
`received >= numMsgs` sent it); the `received == 1` branch contributes
`(1, false)`. -/
def subChanSends (numMsgs : Nat) : Nat → List (Nat × Bool)
  | 0 => []
  | d + 1 =>
      subChanSends numMsgs d ++
        ((if d + 1 = 1 then [(d + 1, false)] else []) ++
          (if numMsgs ≤ d + 1 then [(d + 1, true)] else []))

/-- Strictly before the target is reached, the channel holds only the
first-delivery timestamp. -/
theorem subChanSends_before (N : Nat) :
    ∀ d, 1 ≤ d → d < N → subChanSends N d = [(1, false)] := by
  intro d
  induction d with
  | zero => intro h _; omega
  | succ n ih =>
      intro _ hlt
      unfold subChanSends
      rcases Nat.eq_zero_or_pos n with rfl | hn
      · have : ¬ N ≤ 0 + 1 := by omega
        simp [this, subChanSends]
      · have h1 : ¬ n + 1 = 1 := by omega
        have h2 : ¬ N ≤ n + 1 := by omega
        rw [ih hn (by omega)]
        simp [h1, h2]

/-- After exactly N deliveries (with target N ≥ 1) the channel history is
the start send from delivery 1 followed by the single completion send from
delivery N. -/
theorem subChanSends_run (N : Nat) (h : 1 ≤ N) :
    subChanSends N N = [(1, false), (N, true)] := by
  obtain ⟨m, rfl⟩ : ∃ m, N = m + 1 := ⟨N - 1, by omega⟩
  rcases Nat.eq_zero_or_pos m with rfl | hm
  · decide
  · unfold subChanSends
    rw [subChanSends_before (m + 1) m hm (Nat.lt_succ_self m)]
    have h1 : ¬ m + 1 = 1 := by omega
    have h2 : m + 1 ≤ m + 1 := le_refl _
    simp [h1, h2]

/-- C5: a non-queue subscriber with target N ≥ 1, which over the whole run
receives exactly the N published messages, gets its completion signal (the
second value consumed from the rendezvous channel) from the send made by the
completion branch at exactly the N-th delivery; the completion branch fires
exactly once during the run, namely at delivery N, and fires at no delivery
before the N-th. -/
theorem nonQueueCompletion_atNthDelivery (N : Nat) (h : 1 ≤ N) :
    (subChanSends N N)[1]? = some (N, true) ∧
    (subChanSends N N).filter (fun s => s.2) = [(N, true)] ∧
    (∀ d, d < N → (subChanSends N d).filter (fun s => s.2) = []) := by
  rw [subChanSends_run N h]
  refine ⟨rfl, rfl, ?_⟩
  intro d hd
  rcases Nat.eq_zero_or_pos d with rfl | hdpos
  · rfl
  · rw [subChanSends_before N d hdpos hd]
    rfl

/-- Witness for C5 at target N = 4. -/
theorem nonQueueCompletion_atNthDelivery_witness :
    (subChanSends 4 4)[1]? = some (4, true) :=
  (nonQueueCompletion_atNthDelivery 4 (by decide)).1

/-- Per-member subscriber state in a queue-group run.  `received` is the
worker's local delivery counter, `sends` the number of values its `mcb` ever
pushed on its rendezvous channel, `subOpen` whether its subscription is still
open, `finished` whether its worker has consumed both channel values and run
the completion block, and `sampleCount` the message count frozen into its
Sample at that moment (`src/main/main.go:260`). -/
structure MemberState where
  received : Nat
  sends : Nat
  subOpen : Bool
  finished : Bool
  sampleCount : Option Nat
deriving DecidableEq, Repr

/-- Global state of one queue-group benchmark run: the shared atomic counters
`qTotalRecv` and `qSubsLeft` (`src/main/main.go:49-53`), the per-member
states, and the message accounting — original messages not yet delivered,
sentinel messages published but not yet delivered, and the total number of
sentinels ever published. -/
structure QState where
  members : List MemberState
  qTotalRecv : Nat
  qSubsLeft : Int
  origRemaining : Nat
  sentInFlight : Nat
  sentPublished : Nat
deriving DecidableEq, Repr

/-- Fresh member before any delivery. -/
def initMember : MemberState := ⟨0, 0, true, false, none⟩

/-- Run entry state (`src/main/main.go:115-125`): `qSubsLeft` starts at the
subscriber count, `qTotalRecv` at zero, and the publishers will inject `N`
original messages. -/
def initQ (K N : Nat) : QState :=
  ⟨List.replicate K initMember, 0, (K : Int), N, 0, 0⟩

/-- Events of a queue-group run: delivery of an original message to member
`j`, delivery of a sentinel message to member `j` (queue load-balancing picks
any member with an open subscription), and member `j`'s worker running its
completion block. -/
inductive QEvent where
  | deliverOrig (j : Nat)
  | deliverSent (j : Nat)
  | finish (j : Nat)
deriving DecidableEq, Repr

/-- Queue-mode delivery callback `mcb` (`src/main/main.go:231-245`) run by
member `j`: requires an open subscription; increments the local `received`
and the shared `qTotalRecv` (atomically); pushes the start timestamp on the
first local delivery and a completion timestamp whenever the shared counter
has reached the target `N`. -/
def deliverTo (N : Nat) (s : QState) (j : Nat) : Option QState :=
  match s.members[j]? with
  | none => none
  | some m =>
      if m.subOpen then
        some { s with
          members := s.members.set j
            { m with
              received := m.received + 1,
              sends := m.sends + (if m.received + 1 = 1 then 1 else 0) +
                (if N ≤ s.qTotalRecv + 1 then 1 else 0) },
          qTotalRecv := s.qTotalRecv + 1 }
      else none

/-- One step of a queue-group run.  `finish j` is the tail of `runSubscriber`
(`src/main/main.go:258-273`): it requires both channel values to be
available (`sends ≥ 2`) and the member not to have finished already; it
freezes the Sample count at the member's current local `received`, performs
the atomic decrement of `qSubsLeft`, and runs `queueFinishTail`: a closing
member leaves the queue and one sentinel enters flight. -/
def qstep (N : Nat) (s : QState) : QEvent → Option QState
  | QEvent.deliverOrig j =>
      if 0 < s.origRemaining then
        (deliverTo N s j).map (fun t => { t with origRemaining := s.origRemaining - 1 })
      else none
  | QEvent.deliverSent j =>
      if 0 < s.sentInFlight then
        (deliverTo N s j).map (fun t => { t with sentInFlight := s.sentInFlight - 1 })
      else none
  | QEvent.finish j =>
      match s.members[j]? with
      | none => none
      | some m =>
          if m.finished = false ∧ 2 ≤ m.sends then
            some { s with
              members := s.members.set j
                { m with
                  finished := true,
                  subOpen := if 0 < s.qSubsLeft - 1 then false else m.subOpen,
                  sampleCount := some m.received },
              qSubsLeft := s.qSubsLeft - 1,
              sentInFlight := s.sentInFlight + (if 0 < s.qSubsLeft - 1 then 1 else 0),
              sentPublished := s.sentPublished + (if 0 < s.qSubsLeft - 1 then 1 else 0) }
          else none

/-- Run a whole event trace. -/
def runTrace (N : Nat) (s : QState) : List QEvent → Option QState
  | [] => some s
  | e :: tr =>
      match qstep N s e with
      | none => none
      | some s' => runTrace N s' tr

/-- All intermediate states of a trace, the start state first. -/
def traceStates (N : Nat) (s : QState) : List QEvent → Option (List QState)
  | [] => some [s]
  | e :: tr =>
      match qstep N s e with
      | none => none
      | some s' => (traceStates N s' tr).map (fun l => s :: l)

/-- Number of members whose worker has finished. -/
def isFin (m : MemberState) : Bool := m.finished

/-- Member unblocked but not yet finished: both channel values available. -/
def isUnb (m : MemberState) : Bool := !m.finished && decide (2 ≤ m.sends)

/-- Count of finished members. -/
def finishedCount (s : QState) : Nat := s.members.countP isFin

/-- Count of unblocked-but-unfinished members. -/
def unbCount (s : QState) : Nat := s.members.countP isUnb

/-- Is any event enabled?  Events addressing indices beyond the member list
are never enabled, so ranging over the member indices is exhaustive. -/
def hasEnabled (N : Nat) (s : QState) : Bool :=
  (List.range s.members.length).any (fun j =>
    (qstep N s (QEvent.deliverOrig j)).isSome ||
      (qstep N s (QEvent.deliverSent j)).isSome ||
      (qstep N s (QEvent.finish j)).isSome)

/-- Updating one list entry trades its contribution to a count for the new
entry's contribution. -/
theorem countP_set_eq {α : Type} (p : α → Bool) (l : List α) :
    ∀ (j : Nat) (b m : α), l[j]? = some m →
      (l.set j b).countP p + (if p m then 1 else 0) =
        l.countP p + (if p b then 1 else 0) := by
  induction l with
  | nil =>
      intro j b m hm
      cases hm
  | cons hd tl ih =>
      intro j b m hm
      cases j with
      | zero =>
          have : hd = m := by simpa using hm
          subst this
          simp [List.set, List.countP_cons]
          omega
      | succ n =>
          have hm' : tl[n]? = some m := by simpa using hm
          simp only [List.set, List.countP_cons]
          have := ih n b m hm'
          omega

/-- List elements found by index are members. -/
theorem mem_of_getElem?_aux {α : Type} (l : List α) (j : Nat) (a : α)
    (h : l[j]? = some a) : a ∈ l := by
  have hj : j < l.length := (List.getElem?_eq_some.mp h).1
  obtain ⟨hj', hget⟩ := List.getElem?_eq_some.mp h
  exact hget ▸ List.getElem_mem hj'

/-- Field-wise description of a successful delivery: the member `m` found at
index `j` had an open subscription, and it is replaced by `newM` with one more
local delivery, a start send on the first local delivery, and a completion
send when the shared counter has reached the target. -/
theorem deliverTo_some (N : Nat) (s : QState) (j : Nat) (t : QState)
    (h : deliverTo N s j = some t) :
    ∃ m newM, s.members[j]? = some m ∧ m.subOpen = true ∧
      newM.received = m.received + 1 ∧
      newM.sends = m.sends + (if m.received + 1 = 1 then 1 else 0) +
        (if N ≤ s.qTotalRecv + 1 then 1 else 0) ∧
      newM.subOpen = m.subOpen ∧ newM.finished = m.finished ∧
      newM.sampleCount = m.sampleCount ∧
      t.members = s.members.set j newM ∧
      t.qTotalRecv = s.qTotalRecv + 1 ∧
      t.qSubsLeft = s.qSubsLeft ∧ t.origRemaining = s.origRemaining ∧
      t.sentInFlight = s.sentInFlight ∧ t.sentPublished = s.sentPublished := by
  cases hm : s.members[j]? with
  | none =>
      unfold deliverTo at h
      rw [hm] at h
      simp only [] at h
      exact Option.noConfusion h
  | some m =>
      unfold deliverTo at h
      rw [hm] at h
      simp only [] at h
      by_cases ho : m.subOpen = true
      · rw [if_pos ho] at h
        obtain rfl := Option.some.inj h
        exact ⟨m, { m with received := m.received + 1, sends := m.sends + (if m.received + 1 = 1 then 1 else 0) + (if N ≤ s.qTotalRecv + 1 then 1 else 0) }, rfl, ho, rfl, rfl, rfl, rfl, rfl, rfl, rfl, rfl, rfl, rfl, rfl⟩
      · rw [if_neg ho] at h
        exact Option.noConfusion h

/-- Field-wise description of a successful original-message delivery step. -/
theorem qstep_deliverOrig_some (N : Nat) (s : QState) (j : Nat) (s' : QState)
    (h : qstep N s (QEvent.deliverOrig j) = some s') :
    0 < s.origRemaining ∧
      ∃ m newM, s.members[j]? = some m ∧ m.subOpen = true ∧
        newM.received = m.received + 1 ∧
        newM.sends = m.sends + (if m.received + 1 = 1 then 1 else 0) +
          (if N ≤ s.qTotalRecv + 1 then 1 else 0) ∧
        newM.subOpen = m.subOpen ∧ newM.finished = m.finished ∧
        newM.sampleCount = m.sampleCount ∧
        s'.members = s.members.set j newM ∧
        s'.qTotalRecv = s.qTotalRecv + 1 ∧
        s'.qSubsLeft = s.qSubsLeft ∧ s'.origRemaining = s.origRemaining - 1 ∧
        s'.sentInFlight = s.sentInFlight ∧ s'.sentPublished = s.sentPublished := by
  simp only [qstep] at h
  by_cases horig : 0 < s.origRemaining
  · rw [if_pos horig] at h
    cases hd : deliverTo N s j with
    | none =>
        rw [hd] at h
        exact Option.noConfusion h
    | some t =>
        rw [hd] at h
        simp only [Option.map_some'] at h
        obtain rfl := Option.some.inj h
        obtain ⟨m, newM, hm, ho, h1, h2, h3, h4, h5, hmem, hqt, hql, hor, hf, hp⟩ :=
          deliverTo_some N s j t hd
        exact ⟨horig, m, newM, hm, ho, h1, h2, h3, h4, h5, hmem, hqt, hql, rfl, hf, hp⟩
  · rw [if_neg horig] at h
    exact Option.noConfusion h

/-- Field-wise description of a successful sentinel delivery step. -/
theorem qstep_deliverSent_some (N : Nat) (s : QState) (j : Nat) (s' : QState)
    (h : qstep N s (QEvent.deliverSent j) = some s') :
    0 < s.sentInFlight ∧
      ∃ m newM, s.members[j]? = some m ∧ m.subOpen = true ∧
        newM.received = m.received + 1 ∧
        newM.sends = m.sends + (if m.received + 1 = 1 then 1 else 0) +
          (if N ≤ s.qTotalRecv + 1 then 1 else 0) ∧
        newM.subOpen = m.subOpen ∧ newM.finished = m.finished ∧
        newM.sampleCount = m.sampleCount ∧
        s'.members = s.members.set j newM ∧
        s'.qTotalRecv = s.qTotalRecv + 1 ∧
        s'.qSubsLeft = s.qSubsLeft ∧ s'.origRemaining = s.origRemaining ∧
        s'.sentInFlight = s.sentInFlight - 1 ∧ s'.sentPublished = s.sentPublished := by
  simp only [qstep] at h
  by_cases hfl : 0 < s.sentInFlight
  · rw [if_pos hfl] at h
    cases hd : deliverTo N s j with
    | none =>
        rw [hd] at h
        exact Option.noConfusion h
    | some t =>
        rw [hd] at h
        simp only [Option.map_some'] at h
        obtain rfl := Option.some.inj h
        obtain ⟨m, newM, hm, ho, h1, h2, h3, h4, h5, hmem, hqt, hql, hor, hf, hp⟩ :=
          deliverTo_some N s j t hd
        exact ⟨hfl, m, newM, hm, ho, h1, h2, h3, h4, h5, hmem, hqt, hql, hor, rfl, hp⟩
  · rw [if_neg hfl] at h
    exact Option.noConfusion h

/-- The finishing member's action list, explicitly. -/
theorem queueFinishTail_acts (sr : Int) :
    (queueFinishTail sr none).1 =
      if 0 < sr then [SubAction.closeSub, SubAction.publishSentinel] else [] := by
  unfold queueFinishTail
  split_ifs <;> rfl

/-- Field-wise description of a successful finish step. -/
theorem qstep_finish_some (N : Nat) (s : QState) (j : Nat) (s' : QState)
    (h : qstep N s (QEvent.finish j) = some s') :
    ∃ m newM, s.members[j]? = some m ∧ m.finished = false ∧ 2 ≤ m.sends ∧
      newM.received = m.received ∧ newM.sends = m.sends ∧
      newM.subOpen = (if 0 < s.qSubsLeft - 1 then false else m.subOpen) ∧
      newM.finished = true ∧ newM.sampleCount = some m.received ∧
      s'.members = s.members.set j newM ∧
      s'.qTotalRecv = s.qTotalRecv ∧
      s'.qSubsLeft = s.qSubsLeft - 1 ∧ s'.origRemaining = s.origRemaining ∧
      s'.sentInFlight = s.sentInFlight + (if 0 < s.qSubsLeft - 1 then 1 else 0) ∧
      s'.sentPublished = s.sentPublished + (if 0 < s.qSubsLeft - 1 then 1 else 0) := by
  simp only [qstep] at h
  cases hm : s.members[j]? with
  | none =>
      rw [hm] at h
      simp only [] at h
      exact Option.noConfusion h
  | some m =>
      rw [hm] at h
      simp only [] at h
      by_cases hc : m.finished = false ∧ 2 ≤ m.sends
      · rw [if_pos hc] at h
        obtain rfl := Option.some.inj h
        exact ⟨m, { m with finished := true, subOpen := if 0 < s.qSubsLeft - 1 then false else m.subOpen, sampleCount := some m.received }, rfl, hc.1, hc.2, rfl, rfl, rfl, rfl, rfl, rfl, rfl, rfl, rfl, rfl, rfl⟩
      · rw [if_neg hc] at h
        exact Option.noConfusion h

/-- Inductive invariant of a queue-group run with target `N ≥ 1` and `K`
members.  `unbCount + sentInFlight` is the heart of the liveness argument:
once the shared counter has reached the target, there is always exactly one
"token" in the system — either an unblocked-but-unfinished member or one
sentinel in flight — until everyone has finished. -/
structure QInv (N K : Nat) (s : QState) : Prop where
  len : s.members.length = K
  orig_le : s.origRemaining ≤ N
  flight_le : s.sentInFlight ≤ s.sentPublished
  accounting : s.qTotalRecv + s.origRemaining + s.sentInFlight = N + s.sentPublished
  subsLeft : s.qSubsLeft = (K : Int) - (finishedCount s : Int)
  pub_le_fin : s.sentPublished ≤ finishedCount s
  pub_lt_K : finishedCount s = K → s.sentPublished + 1 ≤ K ∨ K = 0
  fin_orig : 1 ≤ finishedCount s → s.origRemaining = 0
  early : s.qTotalRecv < N →
    finishedCount s = 0 ∧ s.sentInFlight = 0 ∧ s.sentPublished = 0 ∧
      ∀ m ∈ s.members, m.sends ≤ 1
  late : N ≤ s.qTotalRecv →
    unbCount s + s.sentInFlight = (if finishedCount s = K then 0 else 1)
  sends_le : ∀ m ∈ s.members, m.sends ≤ 2
  closed_fin : ∀ m ∈ s.members, m.subOpen = false → m.finished = true
  fin_closed : ∀ m ∈ s.members, m.finished = true → m.subOpen = false ∨ finishedCount s = K
  recv0 : ∀ m ∈ s.members, m.received = 0 → m.sends = 0
  recv1 : ∀ m ∈ s.members, 1 ≤ m.received → 1 ≤ m.sends
  sample_eq : ∀ m ∈ s.members, m.finished = true → m.sampleCount = some m.received

/-- Finished members are at most all members. -/
theorem finishedCount_le (N K : Nat) (s : QState) (h : QInv N K s) :
    finishedCount s ≤ K := by
  have h1 : s.members.countP isFin ≤ s.members.length := List.countP_le_length isFin
  have h2 := h.len
  unfold finishedCount
  omega

/-- The invariant holds at the start of every run with a positive target. -/
theorem QInv_init (N K : Nat) (hN : 1 ≤ N) : QInv N K (initQ K N) := by
  have hfin : finishedCount (initQ K N) = 0 := by
    apply List.countP_eq_zero.mpr
    intro m hm
    have : m = initMember := List.eq_of_mem_replicate hm
    subst this
    simp [isFin, initMember]
  refine ⟨?_, ?_, ?_, ?_, ?_, ?_, ?_, ?_, ?_, ?_, ?_, ?_, ?_, ?_, ?_, ?_⟩
  · simp [initQ]
  · exact le_refl N
  · exact le_refl 0
  · simp [initQ]
  · rw [hfin]
    simp [initQ]
  · rw [hfin]
    simp [initQ]
  · intro hK
    rw [hfin] at hK
    right
    omega
  · intro h1
    rw [hfin] at h1
    omega
  · intro _
    refine ⟨hfin, rfl, rfl, ?_⟩
    intro m hm
    have : m = initMember := List.eq_of_mem_replicate hm
    subst this
    simp [initMember]
  · intro hle
    have : (initQ K N).qTotalRecv = 0 := rfl
    rw [this] at hle
    omega
  · intro m hm
    have : m = initMember := List.eq_of_mem_replicate hm
    subst this
    simp [initMember]
  · intro m hm h
    have : m = initMember := List.eq_of_mem_replicate hm
    subst this
    cases h
  · intro m hm h
    have : m = initMember := List.eq_of_mem_replicate hm
    subst this
    cases h
  · intro m hm _
    have : m = initMember := List.eq_of_mem_replicate hm
    subst this
    rfl
  · intro m hm h
    have : m = initMember := List.eq_of_mem_replicate hm
    subst this
    cases h
  · intro m hm h
    have : m = initMember := List.eq_of_mem_replicate hm
    subst this
    cases h

/-- Replacing an entry by one with the same predicate value keeps the count. -/
theorem countP_set_congr {α : Type} (p : α → Bool) (l : List α) (j : Nat) (b m : α)
    (hm : l[j]? = some m) (hpb : p b = p m) :
    (l.set j b).countP p = l.countP p := by
  have h := countP_set_eq p l j b m hm
  rw [hpb] at h
  omega

/-- Replacing a non-satisfying entry by a satisfying one bumps the count. -/
theorem countP_set_incr {α : Type} (p : α → Bool) (l : List α) (j : Nat) (b m : α)
    (hm : l[j]? = some m) (hpm : p m = false) (hpb : p b = true) :
    (l.set j b).countP p = l.countP p + 1 := by
  have h := countP_set_eq p l j b m hm
  rw [hpm, hpb] at h
  simp at h
  omega

/-- Replacing a satisfying entry by a non-satisfying one drops the count. -/
theorem countP_set_decr {α : Type} (p : α → Bool) (l : List α) (j : Nat) (b m : α)
    (hm : l[j]? = some m) (hpm : p m = true) (hpb : p b = false) :
    (l.set j b).countP p + 1 = l.countP p := by
  have h := countP_set_eq p l j b m hm
  rw [hpm, hpb] at h
  simp at h
  omega

/-- Invariant preservation: delivery of an original message. -/
theorem QInv_deliverOrig (N K : Nat) (hN : 1 ≤ N) (s s' : QState) (j : Nat)
    (hinv : QInv N K s) (hstep : qstep N s (QEvent.deliverOrig j) = some s') :
    QInv N K s' := by
  obtain ⟨horig, m, newM, hm, ho, hr1, hr2, hr3, hr4, hr5, hmem, hqt, hql, hor, hf, hp⟩ :=
    qstep_deliverOrig_some N s j s' hstep
  have hmmem : m ∈ s.members := mem_of_getElem?_aux _ _ _ hm
  have hj : j < s.members.length := (List.getElem?_eq_some.mp hm).1
  have hKpos : 1 ≤ K := by
    have := hinv.len
    omega
  have hlen' : s'.members.length = K := by
    rw [hmem, List.length_set]
    exact hinv.len
  have hfin' : finishedCount s' = finishedCount s := by
    unfold finishedCount
    rw [hmem]
    exact countP_set_congr isFin s.members j newM m hm (by simp [isFin, hr4])
  have hq : s.qTotalRecv < N := by
    by_cases hlate : N ≤ s.qTotalRecv
    · exfalso
      have hacc := hinv.accounting
      have h1 := hinv.pub_le_fin
      have h2 : 1 ≤ finishedCount s := by omega
      have h3 := hinv.fin_orig h2
      omega
    · omega
  obtain ⟨hfin0, hf0, hp0, hsends1⟩ := hinv.early hq
  have hmrecv0 := hinv.recv0 m hmmem
  have hmrecv1 := hinv.recv1 m hmmem
  have hmsends := hsends1 m hmmem
  have hmfin : m.finished = false := by
    have := List.countP_eq_zero.mp hfin0 m hmmem
    simpa [isFin] using this
  have hnewsends2 : N ≤ s.qTotalRecv + 1 → newM.sends = 2 := by
    intro hcross
    rw [hr2, if_pos hcross]
    by_cases hrec : m.received + 1 = 1
    · have h0 := hmrecv0 (by omega)
      simp [hrec]
      omega
    · simp [hrec]
      have h1 := hmrecv1 (by omega)
      omega
  have hnewsends1 : ¬ N ≤ s.qTotalRecv + 1 → newM.sends ≤ 1 := by
    intro hncross
    rw [hr2, if_neg hncross]
    by_cases hrec : m.received + 1 = 1
    · have h0 := hmrecv0 (by omega)
      simp [hrec]
      omega
    · simp [hrec]
      omega
  refine { len := hlen', orig_le := ?_, flight_le := ?_, accounting := ?_, subsLeft := ?_,
           pub_le_fin := ?_, pub_lt_K := ?_, fin_orig := ?_, early := ?_, late := ?_,
           sends_le := ?_, closed_fin := ?_, fin_closed := ?_, recv0 := ?_, recv1 := ?_,
           sample_eq := ?_ }
  · have := hinv.orig_le
    omega
  · have := hinv.flight_le
    omega
  · have := hinv.accounting
    omega
  · rw [hql, hfin']
    exact hinv.subsLeft
  · rw [hfin', hp]
    exact hinv.pub_le_fin
  · rw [hfin', hp]
    exact hinv.pub_lt_K
  · intro h1
    rw [hfin', hfin0] at h1
    omega
  · intro hlt'
    rw [hqt] at hlt'
    refine ⟨by rw [hfin', hfin0], by omega, by omega, ?_⟩
    intro m' hm'
    rw [hmem] at hm'
    rcases List.mem_or_eq_of_mem_set hm' with hold | rfl
    · exact hsends1 m' hold
    · exact hnewsends1 (by omega)
  · intro hge'
    rw [hqt] at hge'
    have hunb0 : unbCount s = 0 := by
      apply List.countP_eq_zero.mpr
      intro x hx
      have hxs := hsends1 x hx
      have hx2 : ¬ 2 ≤ x.sends := by omega
      simp [isUnb, hx2]
    have hunb' : unbCount s' = 1 := by
      unfold unbCount
      rw [hmem]
      have hincr := countP_set_incr isUnb s.members j newM m hm
        (by
          have hx2 : ¬ 2 ≤ m.sends := by omega
          simp [isUnb, hx2])
        (by
          have h2 := hnewsends2 hge'
          simp [isUnb, hr4, hmfin, h2])
      unfold unbCount at hunb0
      omega
    rw [hunb', hf, hf0, hfin', hfin0]
    rw [if_neg (by omega)]
  · intro m' hm'
    rw [hmem] at hm'
    rcases List.mem_or_eq_of_mem_set hm' with hold | rfl
    · exact hinv.sends_le m' hold
    · by_cases hcross : N ≤ s.qTotalRecv + 1
      · rw [hnewsends2 hcross]
      · have := hnewsends1 hcross
        omega
  · intro m' hm'
    rw [hmem] at hm'
    rcases List.mem_or_eq_of_mem_set hm' with hold | rfl
    · exact hinv.closed_fin m' hold
    · intro hc
      rw [hr3, ho] at hc
      cases hc
  · intro m' hm' hfinm'
    rw [hfin']
    rw [hmem] at hm'
    rcases List.mem_or_eq_of_mem_set hm' with hold | rfl
    · exact hinv.fin_closed m' hold hfinm'
    · rw [hr4, hmfin] at hfinm'
      cases hfinm'
  · intro m' hm'
    rw [hmem] at hm'
    rcases List.mem_or_eq_of_mem_set hm' with hold | rfl
    · exact hinv.recv0 m' hold
    · intro hc
      rw [hr1] at hc
      omega
  · intro m' hm'
    rw [hmem] at hm'
    rcases List.mem_or_eq_of_mem_set hm' with hold | rfl
    · exact hinv.recv1 m' hold
    · intro _
      rw [hr2]
      rcases Nat.eq_zero_or_pos m.received with h0 | h1
      · have := hmrecv0 h0
        split_ifs <;> omega
      · have := hmrecv1 h1
        split_ifs <;> omega
  · intro m' hm' hfinm'
    rw [hmem] at hm'
    rcases List.mem_or_eq_of_mem_set hm' with hold | rfl
    · exact hinv.sample_eq m' hold hfinm'
    · rw [hr4, hmfin] at hfinm'
      cases hfinm'

/-- Invariant preservation: delivery of a sentinel message. -/
theorem QInv_deliverSent (N K : Nat) (hN : 1 ≤ N) (s s' : QState) (j : Nat)
    (hinv : QInv N K s) (hstep : qstep N s (QEvent.deliverSent j) = some s') :
    QInv N K s' := by
  obtain ⟨hfl, m, newM, hm, ho, hr1, hr2, hr3, hr4, hr5, hmem, hqt, hql, hor, hf, hp⟩ :=
    qstep_deliverSent_some N s j s' hstep
  have hmmem : m ∈ s.members := mem_of_getElem?_aux _ _ _ hm
  have hj : j < s.members.length := (List.getElem?_eq_some.mp hm).1
  have hKpos : 1 ≤ K := by
    have := hinv.len
    omega
  have hlen' : s'.members.length = K := by
    rw [hmem, List.length_set]
    exact hinv.len
  have hfin' : finishedCount s' = finishedCount s := by
    unfold finishedCount
    rw [hmem]
    exact countP_set_congr isFin s.members j newM m hm (by simp [isFin, hr4])
  have hlate : N ≤ s.qTotalRecv := by
    by_cases hq : s.qTotalRecv < N
    · exfalso
      have := (hinv.early hq).2.1
      omega
    · omega
  have hlateEq := hinv.late hlate
  have hfinK : finishedCount s ≠ K := by
    intro hK
    rw [if_pos hK] at hlateEq
    omega
  rw [if_neg hfinK] at hlateEq
  have hf1 : s.sentInFlight = 1 := by omega
  have hunb0 : unbCount s = 0 := by omega
  have hmfin : m.finished = false := by
    by_cases hb : m.finished = true
    · rcases hinv.fin_closed m hmmem hb with hcl | hK
      · rw [hcl] at ho
        cases ho
      · exact absurd hK hfinK
    · simpa using hb
  have hmsle : ¬ 2 ≤ m.sends := by
    intro h2
    have hpos : 0 < unbCount s :=
      List.countP_pos_iff.mpr ⟨m, hmmem, by simp [isUnb, hmfin, h2]⟩
    omega
  have horig0 : s.origRemaining = 0 := by
    have h1 := hinv.flight_le
    have h2 := hinv.pub_le_fin
    have h3 : 1 ≤ finishedCount s := by omega
    exact hinv.fin_orig h3
  have hmrecv0 := hinv.recv0 m hmmem
  have hmrecv1 := hinv.recv1 m hmmem
  have hnewsends2 : newM.sends = 2 := by
    rw [hr2, if_pos (show N ≤ s.qTotalRecv + 1 by omega)]
    rcases Nat.eq_zero_or_pos m.received with h0 | h1
    · have := hmrecv0 h0
      split_ifs <;> omega
    · have := hmrecv1 h1
      split_ifs <;> omega
  have hunb' : unbCount s' = 1 := by
    unfold unbCount
    rw [hmem]
    have hincr := countP_set_incr isUnb s.members j newM m hm
      (by simp [isUnb, hmsle])
      (by simp [isUnb, hr4, hmfin, hnewsends2])
    unfold unbCount at hunb0
    omega
  refine { len := hlen', orig_le := ?_, flight_le := ?_, accounting := ?_, subsLeft := ?_,
           pub_le_fin := ?_, pub_lt_K := ?_, fin_orig := ?_, early := ?_, late := ?_,
           sends_le := ?_, closed_fin := ?_, fin_closed := ?_, recv0 := ?_, recv1 := ?_,
           sample_eq := ?_ }
  · have := hinv.orig_le
    omega
  · have := hinv.flight_le
    omega
  · have := hinv.accounting
    omega
  · rw [hql, hfin']
    exact hinv.subsLeft
  · rw [hfin', hp]
    exact hinv.pub_le_fin
  · rw [hfin', hp]
    exact hinv.pub_lt_K
  · intro _
    rw [hor]
    exact horig0
  · intro hlt'
    exfalso
    rw [hqt] at hlt'
    omega
  · intro _
    rw [hunb', hf, hf1, hfin']
    rw [if_neg hfinK]
  · intro m' hm'
    rw [hmem] at hm'
    rcases List.mem_or_eq_of_mem_set hm' with hold | rfl
    · exact hinv.sends_le m' hold
    · rw [hnewsends2]
  · intro m' hm'
    rw [hmem] at hm'
    rcases List.mem_or_eq_of_mem_set hm' with hold | rfl
    · exact hinv.closed_fin m' hold
    · intro hc
      rw [hr3, ho] at hc
      cases hc
  · intro m' hm' hfinm'
    rw [hfin']
    rw [hmem] at hm'
    rcases List.mem_or_eq_of_mem_set hm' with hold | rfl
    · exact hinv.fin_closed m' hold hfinm'
    · rw [hr4, hmfin] at hfinm'
      cases hfinm'
  · intro m' hm'
    rw [hmem] at hm'
    rcases List.mem_or_eq_of_mem_set hm' with hold | rfl
    · exact hinv.recv0 m' hold
    · intro hc
      rw [hr1] at hc
      omega
  · intro m' hm'
    rw [hmem] at hm'
    rcases List.mem_or_eq_of_mem_set hm' with hold | rfl
    · exact hinv.recv1 m' hold
    · intro _
      rw [hnewsends2]
      omega
  · intro m' hm' hfinm'
    rw [hmem] at hm'
    rcases List.mem_or_eq_of_mem_set hm' with hold | rfl
    · exact hinv.sample_eq m' hold hfinm'
    · rw [hr4, hmfin] at hfinm'
      cases hfinm'

/-- Invariant preservation: a member's worker runs its completion block. -/
theorem QInv_finish (N K : Nat) (hN : 1 ≤ N) (s s' : QState) (j : Nat)
    (hinv : QInv N K s) (hstep : qstep N s (QEvent.finish j) = some s') :
    QInv N K s' := by
  obtain ⟨m, newM, hm, hmfin, hms, hr1, hr2, hr3, hr4, hr5, hmem, hqt, hql, hor, hf, hp⟩ :=
    qstep_finish_some N s j s' hstep
  have hmmem : m ∈ s.members := mem_of_getElem?_aux _ _ _ hm
  have hj : j < s.members.length := (List.getElem?_eq_some.mp hm).1
  have hKpos : 1 ≤ K := by
    have := hinv.len
    omega
  have hlen' : s'.members.length = K := by
    rw [hmem, List.length_set]
    exact hinv.len
  have hlate : N ≤ s.qTotalRecv := by
    by_cases hq : s.qTotalRecv < N
    · exfalso
      have := (hinv.early hq).2.2.2 m hmmem
      omega
    · omega
  have hunbm : isUnb m = true := by simp [isUnb, hmfin, hms]
  have hunbpos : 0 < unbCount s := List.countP_pos_iff.mpr ⟨m, hmmem, hunbm⟩
  have hlateEq := hinv.late hlate
  have hfinK : finishedCount s ≠ K := by
    intro hK
    rw [if_pos hK] at hlateEq
    omega
  rw [if_neg hfinK] at hlateEq
  have hunb1 : unbCount s = 1 := by omega
  have hf0 : s.sentInFlight = 0 := by omega
  have hfinle : finishedCount s ≤ K := finishedCount_le N K s hinv
  have hfinlt : finishedCount s < K := by omega
  have horig0 : s.origRemaining = 0 := by
    rcases Nat.eq_zero_or_pos (finishedCount s) with h0 | h1
    · have h2 := hinv.pub_le_fin
      have h3 := hinv.accounting
      omega
    · exact hinv.fin_orig h1
  have hsl := hinv.subsLeft
  have hsr_iff : (0 < s.qSubsLeft - 1) ↔ (finishedCount s + 2 ≤ K) := by
    rw [hsl]
    omega
  have hfin' : finishedCount s' = finishedCount s + 1 := by
    unfold finishedCount
    rw [hmem]
    exact countP_set_incr isFin s.members j newM m hm (by simp [isFin, hmfin])
      (by simp [isFin, hr4])
  have hunb' : unbCount s' = 0 := by
    unfold unbCount
    rw [hmem]
    have hdecr := countP_set_decr isUnb s.members j newM m hm hunbm
      (by simp [isUnb, hr4])
    have hu : s.members.countP isUnb = 1 := hunb1
    omega
  refine { len := hlen', orig_le := ?_, flight_le := ?_, accounting := ?_, subsLeft := ?_,
           pub_le_fin := ?_, pub_lt_K := ?_, fin_orig := ?_, early := ?_, late := ?_,
           sends_le := ?_, closed_fin := ?_, fin_closed := ?_, recv0 := ?_, recv1 := ?_,
           sample_eq := ?_ }
  · have := hinv.orig_le
    omega
  · rw [hf, hp]
    have := hinv.flight_le
    split_ifs <;> omega
  · rw [hqt, hor, hf, hp]
    have := hinv.accounting
    split_ifs <;> omega
  · rw [hql, hfin', hsl]
    push_cast
    ring
  · rw [hfin', hp]
    have := hinv.pub_le_fin
    split_ifs <;> omega
  · intro hK'
    rw [hfin'] at hK'
    rw [hp]
    left
    have h1 : ¬ (0 < s.qSubsLeft - 1) := by
      rw [hsr_iff]
      omega
    rw [if_neg h1]
    have := hinv.pub_le_fin
    omega
  · intro _
    rw [hor]
    exact horig0
  · intro hlt'
    exfalso
    rw [hqt] at hlt'
    omega
  · intro _
    rw [hunb', hf, hf0, hfin']
    by_cases hsr : 0 < s.qSubsLeft - 1
    · rw [if_pos hsr]
      rw [if_neg (by rw [hsr_iff] at hsr; omega)]
    · rw [if_neg hsr]
      rw [hsr_iff] at hsr
      rw [if_pos (by omega)]
  · intro m' hm'
    rw [hmem] at hm'
    rcases List.mem_or_eq_of_mem_set hm' with hold | rfl
    · exact hinv.sends_le m' hold
    · rw [hr2]
      exact hinv.sends_le m hmmem
  · intro m' hm'
    rw [hmem] at hm'
    rcases List.mem_or_eq_of_mem_set hm' with hold | rfl
    · exact hinv.closed_fin m' hold
    · intro _
      exact hr4
  · intro m' hm' hfinm'
    rw [hfin']
    rw [hmem] at hm'
    rcases List.mem_or_eq_of_mem_set hm' with hold | rfl
    · rcases hinv.fin_closed m' hold hfinm' with hcl | hK
      · exact Or.inl hcl
      · exact absurd hK hfinK
    · by_cases hsr : 0 < s.qSubsLeft - 1
      · left
        rw [hr3, if_pos hsr]
      · right
        rw [hsr_iff] at hsr
        omega
  · intro m' hm'
    rw [hmem] at hm'
    rcases List.mem_or_eq_of_mem_set hm' with hold | rfl
    · exact hinv.recv0 m' hold
    · intro hc
      rw [hr1] at hc
      rw [hr2]
      exact hinv.recv0 m hmmem hc
  · intro m' hm'
    rw [hmem] at hm'
    rcases List.mem_or_eq_of_mem_set hm' with hold | rfl
    · exact hinv.recv1 m' hold
    · intro hc
      rw [hr1] at hc
      rw [hr2]
      exact hinv.recv1 m hmmem hc
  · intro m' hm' hfinm'
    rw [hmem] at hm'
    rcases List.mem_or_eq_of_mem_set hm' with hold | rfl
    · exact hinv.sample_eq m' hold hfinm'
    · rw [hr5, hr1]

/-- Invariant preservation for every step. -/
theorem QInv_step (N K : Nat) (hN : 1 ≤ N) (s s' : QState) (e : QEvent)
    (hinv : QInv N K s) (hstep : qstep N s e = some s') : QInv N K s' := by
  cases e with
  | deliverOrig j => exact QInv_deliverOrig N K hN s s' j hinv hstep
  | deliverSent j => exact QInv_deliverSent N K hN s s' j hinv hstep
  | finish j => exact QInv_finish N K hN s s' j hinv hstep

/-- Every step raises the shared counter by at most one and never raises
`qSubsLeft`. -/
theorem qstep_deltas (N : Nat) (s s' : QState) (e : QEvent) (h : qstep N s e = some s') :
    (s'.qTotalRecv = s.qTotalRecv ∨ s'.qTotalRecv = s.qTotalRecv + 1) ∧
      s'.qSubsLeft ≤ s.qSubsLeft := by
  cases e with
  | deliverOrig j =>
      obtain ⟨_, m, newM, _, _, _, _, _, _, _, _, hqt, hql, _, _, _⟩ :=
        qstep_deliverOrig_some N s j s' h
      exact ⟨Or.inr hqt, le_of_eq hql⟩
  | deliverSent j =>
      obtain ⟨_, m, newM, _, _, _, _, _, _, _, _, hqt, hql, _, _, _⟩ :=
        qstep_deliverSent_some N s j s' h
      exact ⟨Or.inr hqt, le_of_eq hql⟩
  | finish j =>
      obtain ⟨m, newM, _, _, _, _, _, _, _, _, _, hqt, hql, _, _, _⟩ :=
        qstep_finish_some N s j s' h
      refine ⟨Or.inl hqt, ?_⟩
      rw [hql]
      omega

/-- Termination measure of a queue-group run. -/
def qMeasure (K : Nat) (s : QState) : Nat :=
  2 * (K - finishedCount s) + s.origRemaining + s.sentInFlight

/-- Every step strictly decreases the measure. -/
theorem qstep_measure_lt (N K : Nat) (hN : 1 ≤ N) (s s' : QState) (e : QEvent)
    (hinv : QInv N K s) (h : qstep N s e = some s') :
    qMeasure K s' < qMeasure K s := by
  have hinv' := QInv_step N K hN s s' e hinv h
  have hle := finishedCount_le N K s hinv
  have hle' := finishedCount_le N K s' hinv'
  unfold qMeasure
  cases e with
  | deliverOrig j =>
      obtain ⟨horig, m, newM, hm, _, _, _, _, hr4, _, hmem, hqt, hql, hor, hf, hp⟩ :=
        qstep_deliverOrig_some N s j s' h
      have hfin' : finishedCount s' = finishedCount s := by
        unfold finishedCount
        rw [hmem]
        exact countP_set_congr isFin s.members j newM m hm (by simp [isFin, hr4])
      omega
  | deliverSent j =>
      obtain ⟨hfl, m, newM, hm, _, _, _, _, hr4, _, hmem, hqt, hql, hor, hf, hp⟩ :=
        qstep_deliverSent_some N s j s' h
      have hfin' : finishedCount s' = finishedCount s := by
        unfold finishedCount
        rw [hmem]
        exact countP_set_congr isFin s.members j newM m hm (by simp [isFin, hr4])
      omega
  | finish j =>
      obtain ⟨m, newM, hm, hmfin, hms, _, _, _, hr4, _, hmem, hqt, hql, hor, hf, hp⟩ :=
        qstep_finish_some N s j s' h
      have hfin' : finishedCount s' = finishedCount s + 1 := by
        unfold finishedCount
        rw [hmem]
        exact countP_set_incr isFin s.members j newM m hm (by simp [isFin, hmfin])
          (by simp [isFin, hr4])
      rw [hfin'] at hle'
      split_ifs at hf with hsr <;> omega

/-- Along any successfully executed trace the invariant is preserved and the
trace length is bounded by the measure of the start state. -/
theorem runTrace_measure (N K : Nat) (hN : 1 ≤ N) :
    ∀ (tr : List QEvent) (s s' : QState), QInv N K s → runTrace N s tr = some s' →
      QInv N K s' ∧ tr.length + qMeasure K s' ≤ qMeasure K s := by
  intro tr
  induction tr with
  | nil =>
      intro s s' h hrun
      simp only [runTrace] at hrun
      obtain rfl := Option.some.inj hrun
      exact ⟨h, by simp⟩
  | cons e tr ih =>
      intro s s' h hrun
      simp only [runTrace] at hrun
      cases hq : qstep N s e with
      | none =>
          rw [hq] at hrun
          exact Option.noConfusion hrun
      | some t =>
          rw [hq] at hrun
          simp only [] at hrun
          have h1 := QInv_step N K hN s t e h hq
          have h2 := qstep_measure_lt N K hN s t e h hq
          obtain ⟨h3, h4⟩ := ih t s' h1 hrun
          refine ⟨h3, ?_⟩
          simp only [List.length_cons]
          omega

/-- Deadlock freedom: in a reachable state where no event is enabled, every
member has finished.  The invariant's token argument makes this work: as long
as someone is unfinished there is an original message to deliver, a sentinel
in flight that some open unfinished member can receive, or an unblocked
member that can run its completion block. -/
theorem terminal_all_finished (N K : Nat) (hN : 1 ≤ N) (hK : 1 ≤ K) (s : QState)
    (hinv : QInv N K s) (hterm : hasEnabled N s = false) :
    finishedCount s = K ∧ ∀ m ∈ s.members, m.finished = true := by
  have hlen := hinv.len
  have hne : ∀ j, j < s.members.length →
      (qstep N s (QEvent.deliverOrig j)).isSome = false ∧
      (qstep N s (QEvent.deliverSent j)).isSome = false ∧
      (qstep N s (QEvent.finish j)).isSome = false := by
    intro j hj
    unfold hasEnabled at hterm
    rw [List.any_eq_false] at hterm
    have h1 := hterm j (List.mem_range.mpr hj)
    simp only [Bool.or_eq_true, not_or, Bool.not_eq_true] at h1
    exact ⟨h1.1.1, h1.1.2, h1.2⟩
  have hfinK : finishedCount s = K := by
    by_contra hne'
    have hlt : finishedCount s < K :=
      lt_of_le_of_ne (finishedCount_le N K s hinv) hne'
    have hex : ∃ a ∈ s.members, ¬ isFin a = true := by
      by_contra hall
      push_neg at hall
      have hcp : s.members.countP isFin = s.members.length :=
        List.countP_eq_length.mpr hall
      have : finishedCount s = K := by
        unfold finishedCount
        omega
      exact hne' this
    obtain ⟨a, hamem, hafin⟩ := hex
    obtain ⟨j, hj⟩ := List.mem_iff_getElem?.mp hamem
    have hjlt : j < s.members.length := (List.getElem?_eq_some.mp hj).1
    have haopen : a.subOpen = true := by
      cases hopen : a.subOpen with
      | false =>
          exfalso
          have hfin := hinv.closed_fin a hamem hopen
          simp [isFin, hfin] at hafin
      | true => rfl
    by_cases hq : s.qTotalRecv < N
    · obtain ⟨hfin0, hf0, hp0, _⟩ := hinv.early hq
      have horig : 0 < s.origRemaining := by
        have := hinv.accounting
        omega
      have henabled : (qstep N s (QEvent.deliverOrig j)).isSome = true := by
        simp only [qstep]
        rw [if_pos horig]
        unfold deliverTo
        rw [hj]
        simp only []
        rw [if_pos haopen]
        rfl
      rw [(hne j hjlt).1] at henabled
      cases henabled
    · have hlate : N ≤ s.qTotalRecv := by omega
      have hlateEq := hinv.late hlate
      rw [if_neg hne'] at hlateEq
      by_cases hf : 0 < s.sentInFlight
      · have henabled : (qstep N s (QEvent.deliverSent j)).isSome = true := by
          simp only [qstep]
          rw [if_pos hf]
          unfold deliverTo
          rw [hj]
          simp only []
          rw [if_pos haopen]
          rfl
        rw [(hne j hjlt).2.1] at henabled
        cases henabled
      · have hunb : 0 < unbCount s := by omega
        obtain ⟨b, hbmem, hbunb⟩ := List.countP_pos_iff.mp hunb
        obtain ⟨i, hi⟩ := List.mem_iff_getElem?.mp hbmem
        have hilt : i < s.members.length := (List.getElem?_eq_some.mp hi).1
        simp only [isUnb, Bool.and_eq_true, Bool.not_eq_true', decide_eq_true_eq] at hbunb
        have henabled : (qstep N s (QEvent.finish i)).isSome = true := by
          simp only [qstep]
          rw [hi]
          simp only []
          rw [if_pos ⟨hbunb.1, hbunb.2⟩]
          rfl
        rw [(hne i hilt).2.2] at henabled
        cases henabled
  refine ⟨hfinK, ?_⟩
  intro m hm
  have hcp : s.members.countP isFin = s.members.length := by
    unfold finishedCount at hfinK
    omega
  have := List.countP_eq_length.mp hcp m hm
  simpa [isFin] using this

/-- Number of adjacent pairs of a value history that cross the threshold `N`
from strictly below to at least `N`. -/
def crossings (N : Nat) : List Nat → Nat
  | a :: b :: rest => (if a < N ∧ N ≤ b then 1 else 0) + crossings N (b :: rest)
  | _ => 0

/-- A nondecreasing history that starts at or above the threshold never
crosses it. -/
theorem crossings_zero (N : Nat) :
    ∀ (l : List Nat), List.Chain' (fun x y => x ≤ y ∧ y ≤ x + 1) l →
      ∀ a0, l.head? = some a0 → N ≤ a0 → crossings N l = 0 := by
  intro l
  induction l with
  | nil =>
      intro _ a0 hh
      exact Option.noConfusion hh
  | cons a t ih =>
      intro hch a0 hh hN0
      obtain rfl : a = a0 := by simpa using hh
      cases t with
      | nil => rfl
      | cons b t2 =>
          rw [List.chain'_cons] at hch
          have hab := hch.1
          unfold crossings
          rw [if_neg (by omega : ¬(a < N ∧ N ≤ b))]
          have hrec := ih hch.2 b (by simp) (by omega)
          omega

/-- A history that moves by at most one per step, starts strictly below the
threshold and ends at or above it, crosses exactly once and attains the
threshold value itself (it cannot be skipped). -/
theorem crossings_one (N : Nat) :
    ∀ (l : List Nat), List.Chain' (fun x y => x ≤ y ∧ y ≤ x + 1) l →
      ∀ a0 aL, l.head? = some a0 → l.getLast? = some aL → a0 < N → N ≤ aL →
        crossings N l = 1 ∧ N ∈ l := by
  intro l
  induction l with
  | nil =>
      intro _ a0 aL hh
      exact Option.noConfusion hh
  | cons a t ih =>
      intro hch a0 aL hh hlast h0 hL
      obtain rfl : a = a0 := by simpa using hh
      cases t with
      | nil =>
          exfalso
          have : a = aL := by simpa using hlast
          omega
      | cons b t2 =>
          rw [List.chain'_cons] at hch
          have hab := hch.1
          have hlast2 : (b :: t2).getLast? = some aL := by simpa using hlast
          by_cases hbN : N ≤ b
          · have hzero := crossings_zero N (b :: t2) hch.2 b (by simp) hbN
            have hbeq : b = N := by omega
            unfold crossings
            rw [if_pos ⟨h0, hbN⟩]
            subst hbeq
            exact ⟨by omega, by simp⟩
          · have hrec := ih hch.2 b aL (by simp) hlast2 (by omega) hL
            unfold crossings
            rw [if_neg (by omega)]
            exact ⟨by omega, List.mem_cons_of_mem _ hrec.2⟩

/-- The state list of a successful trace starts at the start state, ends at
the trace's final state, and its shared counter moves by at most one per
step. -/
theorem traceStates_props (N : Nat) :
    ∀ (tr : List QEvent) (s : QState) (l : List QState),
      traceStates N s tr = some l →
      l.head? = some s ∧
      (∃ sf, runTrace N s tr = some sf ∧ l.getLast? = some sf) ∧
      List.Chain'
        (fun x y => x.qTotalRecv ≤ y.qTotalRecv ∧ y.qTotalRecv ≤ x.qTotalRecv + 1) l := by
  intro tr
  induction tr with
  | nil =>
      intro s l h
      simp only [traceStates] at h
      obtain rfl := Option.some.inj h
      exact ⟨rfl, ⟨s, rfl, rfl⟩, by simp⟩
  | cons e tr ih =>
      intro s l h
      simp only [traceStates] at h
      cases hq : qstep N s e with
      | none =>
          rw [hq] at h
          exact Option.noConfusion h
      | some t =>
          rw [hq] at h
          simp only [] at h
          cases hts : traceStates N t tr with
          | none =>
              rw [hts] at h
              exact Option.noConfusion h
          | some l2 =>
              rw [hts] at h
              simp only [Option.map_some'] at h
              obtain rfl := Option.some.inj h
              obtain ⟨hh2, ⟨sf, hrun2, hlast2⟩, hch2⟩ := ih t l2 hts
              refine ⟨rfl, ⟨sf, ?_, ?_⟩, ?_⟩
              · simp only [runTrace]
                rw [hq]
                simp only []
                exact hrun2
              · cases l2 with
                | nil => exact Option.noConfusion hh2
                | cons x xs => simpa using hlast2
              · cases l2 with
                | nil => exact Option.noConfusion hh2
                | cons x xs =>
                    obtain rfl : x = t := by simpa using hh2
                    rw [List.chain'_cons]
                    refine ⟨?_, hch2⟩
                    have hd := (qstep_deltas N s x e hq).1
                    rcases hd with h1 | h1 <;> omega

/-- Nobody has finished at the start of a run. -/
theorem finishedCount_init (K N : Nat) : finishedCount (initQ K N) = 0 := by
  apply List.countP_eq_zero.mpr
  intro m hm
  have : m = initMember := List.eq_of_mem_replicate hm
  subst this
  simp [isFin, initMember]

/-- A successful run also has a successful state list. -/
theorem traceStates_isSome (N : Nat) :
    ∀ (tr : List QEvent) (s s' : QState), runTrace N s tr = some s' →
      ∃ l, traceStates N s tr = some l := by
  intro tr
  induction tr with
  | nil =>
      intro s s' _
      exact ⟨[s], rfl⟩
  | cons e tr ih =>
      intro s s' h
      simp only [runTrace] at h
      cases hq : qstep N s e with
      | none =>
          rw [hq] at h
          exact Option.noConfusion h
      | some t =>
          rw [hq] at h
          simp only [] at h
          obtain ⟨l, hl⟩ := ih t s' h
          refine ⟨s :: l, ?_⟩
          simp only [traceStates]
          rw [hq]
          simp only []
          rw [hl]
          rfl

/-- History of shared-counter values along a trace. -/
def qtHist (N : Nat) (s : QState) (tr : List QEvent) : Option (List Nat) :=
  (traceStates N s tr).map (fun l => l.map QState.qTotalRecv)

/-- C2: when a queue-group member's worker runs its completion block, it
atomically decrements the shared `qSubsLeft` by exactly one; if the
decremented value shows other members still active, the member performs
exactly the action list [close own subscription, publish sentinel] — the
close strictly precedes the single sentinel publish — the sentinel-published
count rises by exactly one and the member's subscription ends closed; if it
is the last active member, the action list is empty and no sentinel is
published. -/
theorem queueMemberCompletion_protocol (N : Nat) (s s' : QState) (j : Nat)
    (h : qstep N s (QEvent.finish j) = some s') :
    s'.qSubsLeft = s.qSubsLeft - 1 ∧
    (0 < s.qSubsLeft - 1 →
      (queueFinishTail (s.qSubsLeft - 1) none).1 =
        [SubAction.closeSub, SubAction.publishSentinel] ∧
      s'.sentPublished = s.sentPublished + 1 ∧
      ∃ m', s'.members[j]? = some m' ∧ m'.subOpen = false) ∧
    (s.qSubsLeft - 1 ≤ 0 →
      (queueFinishTail (s.qSubsLeft - 1) none).1 = [] ∧
      s'.sentPublished = s.sentPublished) := by
  obtain ⟨m, newM, hm, hmfin, hms, hr1, hr2, hr3, hr4, hr5, hmem, hqt, hql, hor, hf, hp⟩ :=
    qstep_finish_some N s j s' h
  have hj : j < s.members.length := (List.getElem?_eq_some.mp hm).1
  have hget : s'.members[j]? = some newM := by
    rw [hmem]
    simp [List.getElem?_set_self, hj]
  refine ⟨hql, ?_, ?_⟩
  · intro hsr
    refine ⟨by rw [queueFinishTail_acts, if_pos hsr], by rw [hp, if_pos hsr], newM, hget, ?_⟩
    rw [hr3, if_pos hsr]
  · intro hsr
    have hn : ¬ 0 < s.qSubsLeft - 1 := by omega
    refine ⟨by rw [queueFinishTail_acts, if_neg hn], ?_⟩
    rw [hp, if_neg hn]
    omega

/-- Witness for C2: the first finisher of a 2-member queue run (after taking
both original messages) decrements `qSubsLeft` from 2 to 1. -/
theorem queueMemberCompletion_protocol_witness :
    (⟨[⟨2, 2, false, true, some 2⟩, ⟨0, 0, true, false, none⟩], 2, 1, 0, 1, 1⟩ :
        QState).qSubsLeft =
      (⟨[⟨2, 2, true, false, none⟩, ⟨0, 0, true, false, none⟩], 2, 2, 0, 0, 0⟩ :
        QState).qSubsLeft - 1 :=
  (queueMemberCompletion_protocol 2
    ⟨[⟨2, 2, true, false, none⟩, ⟨0, 0, true, false, none⟩], 2, 2, 0, 0, 0⟩
    ⟨[⟨2, 2, false, true, some 2⟩, ⟨0, 0, true, false, none⟩], 2, 1, 0, 1, 1⟩
    0 (by decide)).1

/-- C3 counterexample: in a 2-member queue run with total target 2 where both
original messages go to member 0, member 0 finishes and publishes a sentinel;
the sentinel delivery to member 1 drives the shared `qTotalRecv` to 3, which
exceeds the run's total message count 2 — refuting "totalDelivered never
exceeds the total message count of the run". -/
theorem qTotalRecv_exceeds_total :
    runTrace 2 (initQ 2 2)
        [QEvent.deliverOrig 0, QEvent.deliverOrig 0, QEvent.finish 0,
         QEvent.deliverSent 1] =
      some ⟨[⟨2, 2, false, true, some 2⟩, ⟨1, 2, true, false, none⟩], 3, 1, 0, 0, 1⟩ ∧
    ¬ (3 : Nat) ≤ 2 := by
  exact ⟨by decide, by decide⟩

/-- C3 (amended): in every queue-group run with K ≥ 1 members and target
N ≥ 1, the shared `qTotalRecv` never exceeds the total message count plus the
number of sentinel messages published (which is at most K − 1), and
`qSubsLeft` — initialized to the subscriber count — equals K minus the number
of finished members, never goes below zero, and never increases at any step.
`qTotalRecv` may exceed N itself, by at most K − 1 sentinel deliveries. -/
theorem queueCounters_invariants (N K : Nat) (hN : 1 ≤ N) (hK : 1 ≤ K) :
    (∀ tr s, runTrace N (initQ K N) tr = some s →
      s.qTotalRecv ≤ N + s.sentPublished ∧
      s.sentPublished ≤ K - 1 ∧
      s.qSubsLeft = (K : Int) - (finishedCount s : Int) ∧
      0 ≤ s.qSubsLeft) ∧
    (∀ tr s e s', runTrace N (initQ K N) tr = some s → qstep N s e = some s' →
      s'.qSubsLeft ≤ s.qSubsLeft) := by
  constructor
  · intro tr s hrun
    have hinv := (runTrace_measure N K hN tr (initQ K N) s (QInv_init N K hN) hrun).1
    have hacc := hinv.accounting
    have hpubfin := hinv.pub_le_fin
    have hfle := finishedCount_le N K s hinv
    refine ⟨by omega, ?_, hinv.subsLeft, ?_⟩
    · by_cases hfK : finishedCount s = K
      · rcases hinv.pub_lt_K hfK with h1 | h1 <;> omega
      · omega
    · rw [hinv.subsLeft]
      omega
  · intro tr s e s' _ hq
    exact (qstep_deltas N s s' e hq).2

/-- Witness for C3's amended theorem: the empty trace of a 1-member run. -/
theorem queueCounters_invariants_witness :
    (initQ 1 1).qTotalRecv ≤ 1 + (initQ 1 1).sentPublished :=
  (((queueCounters_invariants 1 1 (by decide) (by decide)).1) [] (initQ 1 1) rfl).1

/-- C4: for every queue group of K ≥ 1 members with total target N ≥ 1:
every run is bounded (trace length at most N + 2K, at most K − 1 sentinels
published, so a bounded number of sentinel rounds); in every run that can
make no further step, all K members have finished — no member blocks
forever, whatever the (maximally uneven) delivery pattern was — and the
shared counter history reaches the value N exactly once: it crosses from
below N to N at exactly one step and the value N itself is attained, never
skipped and never reached a second time. -/
theorem queueGroup_termination (N K : Nat) (hN : 1 ≤ N) (hK : 1 ≤ K) :
    (∀ tr s, runTrace N (initQ K N) tr = some s →
      tr.length ≤ N + 2 * K ∧ s.sentPublished ≤ K - 1) ∧
    (∀ tr s, runTrace N (initQ K N) tr = some s → hasEnabled N s = false →
      (finishedCount s = K ∧ ∀ m ∈ s.members, m.finished = true) ∧
      ∃ h, qtHist N (initQ K N) tr = some h ∧ crossings N h = 1 ∧ N ∈ h) := by
  have hμinit : qMeasure K (initQ K N) = 2 * K + N := by
    unfold qMeasure
    rw [finishedCount_init]
    simp [initQ]
  constructor
  · intro tr s hrun
    obtain ⟨hinv, hlen⟩ := runTrace_measure N K hN tr (initQ K N) s (QInv_init N K hN) hrun
    have hpubfin := hinv.pub_le_fin
    have hfle := finishedCount_le N K s hinv
    constructor
    · rw [hμinit] at hlen
      omega
    · by_cases hfK : finishedCount s = K
      · rcases hinv.pub_lt_K hfK with h1 | h1 <;> omega
      · omega
  · intro tr s hrun hterm
    have hinv := (runTrace_measure N K hN tr (initQ K N) s (QInv_init N K hN) hrun).1
    have hfin := terminal_all_finished N K hN hK s hinv hterm
    refine ⟨hfin, ?_⟩
    have hNle : N ≤ s.qTotalRecv := by
      by_cases hq2 : s.qTotalRecv < N
      · have h0 := (hinv.early hq2).1
        omega
      · omega
    obtain ⟨l, hl⟩ := traceStates_isSome N tr (initQ K N) s hrun
    obtain ⟨hhead, ⟨sf, hrunf, hlastf⟩, hchain⟩ := traceStates_props N tr (initQ K N) l hl
    obtain rfl : s = sf := by
      rw [hrun] at hrunf
      exact Option.some.inj hrunf
    refine ⟨l.map QState.qTotalRecv, ?_, ?_⟩
    · unfold qtHist
      rw [hl]
      rfl
    · have hchain' :
          List.Chain' (fun a b => a ≤ b ∧ b ≤ a + 1) (l.map QState.qTotalRecv) :=
        (List.chain'_map _).mpr hchain
      have hh : (l.map QState.qTotalRecv).head? = some 0 := by
        rw [List.head?_map, hhead]
        rfl
      have hlast : (l.map QState.qTotalRecv).getLast? = some s.qTotalRecv := by
        rw [List.getLast?_map, hlastf]
        rfl
      exact crossings_one N (l.map QState.qTotalRecv) hchain' 0 s.qTotalRecv hh hlast
        (by omega) hNle

/-- Witness for C4: the 1-member, 1-message run that delivers its message and
finishes ends with every member finished. -/
theorem queueGroup_termination_witness :
    finishedCount ⟨[⟨1, 2, true, true, some 1⟩], 1, 0, 0, 0, 0⟩ = 1 ∧
      ∀ m ∈ (⟨[⟨1, 2, true, true, some 1⟩], 1, 0, 0, 0, 0⟩ : QState).members,
        m.finished = true :=
  ((queueGroup_termination 1 1 (by decide) (by decide)).2
    [QEvent.deliverOrig 0, QEvent.finish 0]
    ⟨[⟨1, 2, true, true, some 1⟩], 1, 0, 0, 0, 0⟩ (by decide) (by decide)).1

/-- C10 counterexample: in the 2-member queue run with target N = 2 in which
member 0 receives both original messages, member 0 — a queue-group member —
records a Sample whose message count equals the shared target 2, refuting
"it equals the target N only for a non-grouped subscriber". -/
theorem groupedMemberSample_equalsTarget :
    runTrace 2 (initQ 2 2)
        [QEvent.deliverOrig 0, QEvent.deliverOrig 0, QEvent.finish 0,
         QEvent.deliverSent 1, QEvent.finish 1] =
      some ⟨[⟨2, 2, false, true, some 2⟩, ⟨1, 2, true, true, some 1⟩], 3, 0, 0, 0, 1⟩ ∧
    (⟨2, 2, false, true, some 2⟩ : MemberState).sampleCount = some 2 := by
  exact ⟨by decide, rfl⟩

/-- C10 (amended): the message count frozen into every queue-group member's
Sample at the moment it consumes its completion signal is that member's own
local received count — including any sentinel deliveries — and not the run's
shared target; it can be smaller than the target (member 1 of the concrete
uneven 2-member run records 1 < 2) and it can also equal the target for a
grouped member that happened to receive all messages. -/
theorem subscriberSample_isLocalCount (N K : Nat) (hN : 1 ≤ N) :
    (∀ tr s, runTrace N (initQ K N) tr = some s →
      ∀ (j : Nat) (m : MemberState), s.members[j]? = some m → m.finished = true →
        m.sampleCount = some m.received) ∧
    (runTrace 2 (initQ 2 2)
        [QEvent.deliverOrig 0, QEvent.deliverOrig 0, QEvent.finish 0,
         QEvent.deliverSent 1, QEvent.finish 1] =
      some ⟨[⟨2, 2, false, true, some 2⟩, ⟨1, 2, true, true, some 1⟩], 3, 0, 0, 0, 1⟩ ∧
      (⟨1, 2, true, true, some 1⟩ : MemberState).sampleCount = some 1 ∧ (1 : Nat) < 2) := by
  constructor
  · intro tr s hrun j m hm hfin
    have hinv := (runTrace_measure N K hN tr (initQ K N) s (QInv_init N K hN) hrun).1
    exact hinv.sample_eq m (mem_of_getElem?_aux _ _ _ hm) hfin
  · exact ⟨by decide, rfl, by decide⟩

/-- Witness for C10's amended theorem: member 0 of the concrete uneven run
records exactly its own local count. -/
theorem subscriberSample_isLocalCount_witness :
    (⟨2, 2, false, true, some 2⟩ : MemberState).sampleCount =
      some (⟨2, 2, false, true, some 2⟩ : MemberState).received :=
  (subscriberSample_isLocalCount 2 2 (by decide)).1
    [QEvent.deliverOrig 0, QEvent.deliverOrig 0, QEvent.finish 0,
     QEvent.deliverSent 1, QEvent.finish 1]
    ⟨[⟨2, 2, false, true, some 2⟩, ⟨1, 2, true, true, some 1⟩], 3, 0, 0, 0, 1⟩
    (by decide) 0 ⟨2, 2, false, true, some 2⟩ (by decide) rfl

end StanBench
